import Mathlib

/-!
Shallow embedding of the `casesmith` static security-flow analyzer
(`src/tag.rs` and `src/lib.rs`) together with proofs about the
classifier, the CFG builder and the flow aggregator.

Strings are modelled by Lean `String`; the Rust byte-slice operations
`starts_with`, `contains`, `to_lowercase` and friends are implemented
below as executable functions on the underlying character lists.
Case folding is modelled at the ASCII level (`Char.toLower`), which is
exact for every marker string the program compares against.
-/

namespace Casesmith

/-- Boolean test that `pat` occurs at the head of `s` (Rust `str::starts_with`). -/
def listStarts : List Char → List Char → Bool
  | _, [] => true
  | [], _ :: _ => false
  | c :: s, p :: ps => c == p && listStarts s ps

/-- Boolean test that `pat` occurs contiguously somewhere in `s` (Rust `str::contains`). -/
def listHasSub (pat : List Char) : List Char → Bool
  | [] => pat.isEmpty
  | c :: t => listStarts (c :: t) pat || listHasSub pat t

/-- Rust `s.starts_with(pat)` on `String`. -/
def sStarts (s pat : String) : Bool := listStarts s.data pat.data

/-- Rust `s.contains(pat)` on `String`. -/
def sContains (s pat : String) : Bool := listHasSub pat.data s.data

/-- Rust `s.to_lowercase()` (ASCII-level model). -/
def sToLower (s : String) : String := String.mk (s.data.map Char.toLower)

/-- The closed tag set of `tag.rs`. -/
inductive EdgeKind where
  | Branch | Loop | Return | Net | Db | Auth | Crypto | Secret | Log | Other
deriving DecidableEq, Repr

/-- Rust `format!("{:?}", kind)` for the derived `Debug` instance of `EdgeKind`. -/
def EdgeKind.debugStr : EdgeKind → String
  | .Branch => "Branch"
  | .Loop => "Loop"
  | .Return => "Return"
  | .Net => "Net"
  | .Db => "Db"
  | .Auth => "Auth"
  | .Crypto => "Crypto"
  | .Secret => "Secret"
  | .Log => "Log"
  | .Other => "Other"

/-- Model of a tree-sitter syntax node: a kind tag, the source text of the
node's byte range, its ordered children, and its named-field children. -/
inductive SynNode where
  | mk (kind : String) (text : String) (children : List SynNode) (fields : List (String × SynNode))

def SynNode.kind : SynNode → String
  | .mk k _ _ _ => k

def SynNode.text : SynNode → String
  | .mk _ t _ _ => t

def SynNode.children : SynNode → List SynNode
  | .mk _ _ c _ => c

def SynNode.fields : SynNode → List (String × SynNode)
  | .mk _ _ _ f => f

/-- Tree-sitter `child_by_field_name`. -/
def childByField (n : SynNode) (name : String) : Option SynNode :=
  ((SynNode.fields n).find? (fun p => p.1 == name)).map (fun p => p.2)

/-- Drop a single trailing carriage return, as Rust `str::lines` does per line. -/
def stripOneCR (l : List Char) : List Char :=
  if l.getLast? == some '\r' then l.dropLast else l

/-- Rust `str::trim` on the character list. -/
def trimData (l : List Char) : List Char :=
  ((l.dropWhile Char.isWhitespace).reverse.dropWhile Char.isWhitespace).reverse

/-- Embedding of `tag.rs::snippet`: first physical line of the node's source
text, trimmed of surrounding whitespace. -/
def snippet (n : SynNode) : String :=
  String.mk (trimData (stripOneCR ((SynNode.text n).data.takeWhile (fun c => c != '\n'))))

/-- Embedding of the inner `flatten` of `tag.rs::call_name`. -/
def flattenName (n : SynNode) : List String :=
  if SynNode.kind n = "identifier" then [snippet n]
  else if SynNode.kind n = "member_expression" then
    (match h : childByField n "object" with
     | some o => flattenName o
     | none => []) ++
    (match childByField n "property" with
     | some p => [snippet p]
     | none => [])
  else [snippet n]
termination_by sizeOf n
decreasing_by
  unfold childByField at h
  cases hf : (SynNode.fields n).find? (fun p => p.1 == "object") with
  | none => rw [hf] at h; exact absurd h (by simp)
  | some p =>
    rw [hf] at h
    simp only [Option.map_some', Option.some.injEq] at h
    have h1 : sizeOf p < sizeOf (SynNode.fields n) :=
      List.sizeOf_lt_of_mem (List.mem_of_find?_eq_some hf)
    have h2 : sizeOf o < sizeOf p := by
      cases p with
      | mk a b => subst h; simp
    have h3 : sizeOf (SynNode.fields n) < sizeOf n := by
      cases n with
      | mk k t ch f => simp [SynNode.fields]
    omega

/-- Rust `Vec::join(".")`. -/
def joinDot : List String → String
  | [] => ""
  | [s] => s
  | s :: t => s ++ "." ++ joinDot t

/-- Embedding of `tag.rs::call_name`. -/
def call_name (call : SynNode) : Option String :=
  match childByField call "function" with
  | none => none
  | some f =>
    let parts := flattenName f
    if parts.isEmpty then none else some (joinDot parts)

/-- Network-client condition of `classify_call` (first rule). -/
def netMarker (name : String) : Bool :=
  sStarts name "axios" || sStarts name "fetch" || sContains name "httpservice"
    || sContains name "got." || sContains name "grpc."

/-- Database condition of `classify_call` (second rule). -/
def dbMarker (name : String) : Bool :=
  sContains name "prisma." || sContains name "repository." || sContains name "manager."
    || sContains name "mongoose." || sContains name "model." || sContains name "query"

/-- Auth condition of `classify_call` (third rule). -/
def authMarker (name : String) : Bool :=
  sContains name "jwt" || sContains name "authguard" || sContains name "passport"

/-- Crypto condition of `classify_call` (fourth rule). -/
def cryptoMarker (name : String) : Bool :=
  sContains name "bcrypt" || sContains name "crypto." || sContains name "createhash"
    || sContains name "createhmac" || sContains name "randombytes" || sContains name "sign"
    || sContains name "verify"

/-- Logging condition of `classify_call` (fifth rule). -/
def logMarker (name : String) : Bool :=
  sStarts name "console." || sContains name "logger." || sContains name "winston"
    || sContains name "pino"

/-- Embedding of `tag.rs::classify_call`: ordered heuristic rules over the
flattened, lower-cased call name. -/
def classify_call (call : SynNode) : Option EdgeKind :=
  let name := sToLower ((call_name call).getD "")
  if netMarker name then some EdgeKind.Net
  else if dbMarker name then some EdgeKind.Db
  else if authMarker name then some EdgeKind.Auth
  else if cryptoMarker name then some EdgeKind.Crypto
  else if logMarker name then some EdgeKind.Log
  else none

/-- Embedding of `tag.rs::is_secretish`. -/
def is_secretish (n : SynNode) : Bool :=
  let s := sToLower (snippet n)
  sContains s "process.env" || sContains s "configservice.get" || sContains s "secret"
    || sContains s "privatekey" || sContains s "apikey" || sContains s "token"

/-- Embedding of `lib.rs::SimpleCfg`. -/
structure SimpleCfg where
  nodes : List String
  edges : List (Nat × Nat)
deriving DecidableEq, Repr

/-- Mutable state of `build_structured_cfg`: the node labels, the edge list
and the index `last` of the most recently appended node. -/
structure BState where
  nodes : List String
  edges : List (Nat × Nat)
  last : Nat
deriving DecidableEq, Repr

/-- The node append performed inline for `If:` and `Return:` nodes:
push the label, add an edge from `last`, advance `last`. -/
def appendNode (st : BState) (label : String) : BState :=
  ⟨st.nodes ++ [label], st.edges ++ [(st.last, st.nodes.length)], st.nodes.length⟩

/-- The node append performed for `Loop:` nodes: push the label, add the
edge from `last`, a self-loop, and an edge to `Exit` (index 1); advance `last`. -/
def appendLoopNode (st : BState) (label : String) : BState :=
  ⟨st.nodes ++ [label],
   st.edges ++ [(st.last, st.nodes.length), (st.nodes.length, st.nodes.length), (st.nodes.length, 1)],
   st.nodes.length⟩

/-- Embedding of the `push_tag_node` helper of `lib.rs::build_structured_cfg`:
skip the append entirely when the node at index `last` already carries the
identical label. -/
def push_tag_node (st : BState) (label : String) : BState :=
  if st.nodes[st.last]? = some label then st else appendNode st label

/-- String prefixes chosen for the classified call kinds in
`build_structured_cfg` (the `_ => "OTHER"` arm is kept from the source). -/
def kindTagText : EdgeKind → String
  | .Net => "NET"
  | .Db => "DB"
  | .Auth => "AUTH"
  | .Crypto => "CRYPTO"
  | .Log => "LOG"
  | _ => "OTHER"

/-- The decorator verbs recognized as Nest route entry points. -/
def decoVerbs : List String := ["@get", "@post", "@put", "@delete", "@patch", "@all"]

/-- First statement group of the traversal loop body: the branch / loop /
return rules (an if-else chain in the source). -/
def stepKindRules (st : BState) (ch : SynNode) : BState :=
  if SynNode.kind ch = "if_statement" then
    appendNode st ("If: " ++ snippet ch)
  else if SynNode.kind ch = "for_statement" ∨ SynNode.kind ch = "while_statement" then
    appendLoopNode st ("Loop: " ++ snippet ch)
  else if SynNode.kind ch = "return_statement" then
    appendNode st ("Return: " ++ snippet ch)
  else st

/-- Second statement group: tag classified call expressions. -/
def stepCallRule (st : BState) (ch : SynNode) : BState :=
  if SynNode.kind ch = "call_expression" then
    match classify_call ch with
    | some k => push_tag_node st (kindTagText k ++ ": " ++ snippet ch)
    | none => st
  else st

/-- Third statement group: tag secret/config reads. -/
def stepSecretRule (st : BState) (ch : SynNode) : BState :=
  if (SynNode.kind ch = "member_expression" ∨ SynNode.kind ch = "call_expression"
      ∨ SynNode.kind ch = "identifier") ∧ is_secretish ch = true then
    push_tag_node st ("SECRET: " ++ snippet ch)
  else st

/-- Fourth statement group: decorator rules (route entry point, then auth
guard; both can fire on the same decorator). -/
def stepDecoRule (st : BState) (ch : SynNode) : BState :=
  if SynNode.kind ch = "decorator" then
    let decoRaw := snippet ch
    let deco := sToLower decoRaw
    let st4 :=
      if decoVerbs.any (fun d => sStarts deco d) then
        push_tag_node st "USER ENTRY (Nest route)"
      else st
    if sContains deco "useguards" = true ∨ sContains deco "auth" = true then
      push_tag_node st4 ("AUTH: " ++ decoRaw)
    else st4
  else st

/-- Body of the traversal loop of `build_structured_cfg` for one visited
child node `ch`: the four statement groups in the source's order. -/
def procChild (st : BState) (ch : SynNode) : BState :=
  stepDecoRule (stepSecretRule (stepCallRule (stepKindRules st ch) ch) ch) ch

mutual
/-- Structural size of a syntax node, used as the traversal measure. -/
def synSize : SynNode → Nat
  | .mk _ _ ch _ => 1 + synSizeList ch

/-- Structural size of a list of syntax nodes. -/
def synSizeList : List SynNode → Nat
  | [] => 0
  | n :: t => synSize n + synSizeList t
end

/-- The explicit-stack traversal loop of `build_structured_cfg`: pop a node,
process each of its children in order (each is also pushed for later
descent, with the last child popped first). -/
def cfgLoop (st : BState) (stack : List SynNode) : BState :=
  match stack with
  | [] => st
  | n :: rest =>
    cfgLoop ((SynNode.children n).foldl procChild st) ((SynNode.children n).reverse ++ rest)
termination_by synSizeList stack
decreasing_by
  have happ : ∀ a b : List SynNode, synSizeList (a ++ b) = synSizeList a + synSizeList b := by
    intro a b
    induction a with
    | nil => simp [synSizeList]
    | cons x t ih => simp [synSizeList, ih]; omega
  have hrev : ∀ a : List SynNode, synSizeList a.reverse = synSizeList a := by
    intro a
    induction a with
    | nil => rfl
    | cons x t ih => simp [synSizeList, List.reverse_cons, happ, ih]; omega
  simp [synSizeList, happ, hrev]
  cases n with
  | mk k t ch f => simp [SynNode.children, synSize]

/-- Embedding of `lib.rs::build_structured_cfg`: run the traversal from the
body node, then always append a final edge from `last` to `Exit`. -/
def build_structured_cfg (body : SynNode) : SimpleCfg :=
  let st := cfgLoop ⟨["Entry", "Exit"], [], 0⟩ [body]
  ⟨st.nodes, st.edges ++ [(st.last, 1)]⟩

/-- First-seen retention of exact `(source, destination)` pairs, as performed
by `HashSet::insert` inside `Vec::retain`. -/
def retainNewEdges (seen : List (Nat × Nat)) : List (Nat × Nat) → List (Nat × Nat)
  | [] => []
  | e :: t => if e ∈ seen then retainNewEdges seen t else e :: retainNewEdges (e :: seen) t

/-- Embedding of `lib.rs::dedupe_cfg_edges`. -/
def dedupe_cfg_edges (cfg : SimpleCfg) : SimpleCfg :=
  ⟨cfg.nodes, retainNewEdges [] cfg.edges⟩

/-- Embedding of `lib.rs::SecEdge`. -/
structure SecEdge where
  func : String
  src : String
  dst : String
  kind : EdgeKind
  sensitive : Bool
deriving DecidableEq, Repr

/-- Embedding of `lib.rs::SecIndex`. -/
structure SecIndex where
  functions : Nat
  edges : Nat
  boundary_crossings : Nat
  pii_edges : Nat
deriving DecidableEq, Repr

/-- Embedding of `lib.rs::SecurityFlow`. -/
structure SecurityFlow where
  index : SecIndex
  edges : List SecEdge
deriving DecidableEq, Repr

/-- The per-edge `EdgeKind` re-derivation of `to_security_flow`, an ordered
chain of prefix/substring checks over the two endpoint labels. -/
def deriveKind (s d : String) : EdgeKind :=
  if sStarts s "NET:" || sStarts d "NET:" then EdgeKind.Net
  else if sStarts s "DB:" || sStarts d "DB:" then EdgeKind.Db
  else if sStarts s "AUTH:" || sStarts d "AUTH:" || sContains s "USER ENTRY" then EdgeKind.Auth
  else if sStarts s "CRYPTO:" || sStarts d "CRYPTO:" then EdgeKind.Crypto
  else if sStarts s "SECRET:" || sStarts d "SECRET:" then EdgeKind.Secret
  else if sStarts s "LOG:" || sStarts d "LOG:" then EdgeKind.Log
  else if sStarts s "Loop" || s == d then EdgeKind.Loop
  else if sStarts d "Return" then EdgeKind.Return
  else if sStarts s "If" || sStarts d "If" then EdgeKind.Branch
  else EdgeKind.Other

/-- The dedupe signature `format!("{}|{:?}|{}|{}", func, kind, s, d)`. -/
def sigString (func : String) (kind : EdgeKind) (s d : String) : String :=
  func ++ "|" ++ EdgeKind.debugStr kind ++ "|" ++ s ++ "|" ++ d

/-- The sensitivity test of `to_security_flow` over the lower-cased
space-joined endpoint labels. -/
def sensitiveOf (s d : String) : Bool :=
  let l := sToLower (s ++ " " ++ d)
  sContains l "pii" || sContains l "ssn" || sContains l "passport"
    || sContains l "password" || sContains l "token" || sContains l "secret"

/-- Accumulator of the edge loop of `to_security_flow`: the retained output
edges, the signature set (modelled as the list of inserted signatures), and
the two counters. -/
structure FlowState where
  edges_out : List SecEdge
  seen : List String
  boundary : Nat
  pii : Nat
deriving DecidableEq, Repr

/-- One iteration of the innermost loop of `to_security_flow`, for the edge
`e` of the CFG of function `func` with node-label list `nodes`.  Label
lookup is total here (out-of-range indices give `""`); the Rust code indexes
directly and all builder-produced CFGs are in bounds. -/
def procEdge (func : String) (nodes : List String) (st : FlowState) (e : Nat × Nat) : FlowState :=
  let s := nodes.getD e.1 ""
  let d := nodes.getD e.2 ""
  let kind := deriveKind s d
  let sig := sigString func kind s d
  if sig ∈ st.seen then st
  else
    let sensitive := sensitiveOf s d
    ⟨st.edges_out ++ [⟨func, s, d, kind, sensitive⟩],
     sig :: st.seen,
     st.boundary + (if kind = EdgeKind.Net then 1 else 0),
     st.pii + (if sensitive then 1 else 0)⟩

/-- A repository map, i.e. the joined per-file structure
`file path → (qualified name → SimpleCfg)`, in one iteration order. -/
def RepoMap := List (String × List (String × SimpleCfg))

/-- Embedding of `lib.rs::to_security_flow`: the triple-nested edge loop
followed by the independent functions count. -/
def to_security_flow (all : RepoMap) : SecurityFlow :=
  let st := all.foldl
    (fun acc fe => fe.2.foldl
      (fun acc fc => fc.2.edges.foldl (procEdge fc.1 fc.2.nodes) acc) acc)
    ⟨[], [], 0, 0⟩
  ⟨⟨(all.map (fun fe => fe.2.length)).sum, st.edges_out.length, st.boundary, st.pii⟩,
   st.edges_out⟩

/-- One `(function, node labels, edge)` occurrence of a repository map, in
iteration order. -/
def Triple : Type := String × List String × (Nat × Nat)

/-- All edge occurrences of a repository map, flattened in iteration order. -/
def flatTriples (all : RepoMap) : List Triple :=
  all.flatMap (fun fe => fe.2.flatMap
    (fun fc => fc.2.edges.map (fun e => (fc.1, fc.2.nodes, e))))

/-- Source label of a triple (total lookup with `""` default). -/
def tripS (t : Triple) : String := t.2.1.getD t.2.2.1 ""

/-- Destination label of a triple. -/
def tripD (t : Triple) : String := t.2.1.getD t.2.2.2 ""

/-- Kind re-derived for a triple, as in the aggregator. -/
def tripKind (t : Triple) : EdgeKind := deriveKind (tripS t) (tripD t)

/-- Dedupe signature of a triple, as in the aggregator. -/
def tripSig (t : Triple) : String := sigString t.1 (tripKind t) (tripS t) (tripD t)

/-- Sensitivity flag of a triple, as in the aggregator. -/
def tripSens (t : Triple) : Bool := sensitiveOf (tripS t) (tripD t)

/-- The `SecEdge` record the aggregator emits for a retained triple. -/
def tripRec (t : Triple) : SecEdge := ⟨t.1, tripS t, tripD t, tripKind t, tripSens t⟩

/-- The aggregator's edge step, uncurried over triples. -/
def procT (st : FlowState) (t : Triple) : FlowState := procEdge t.1 t.2.1 st t.2.2

/-- Spec-side formulation of the dedupe policy, written from the spec's
words: retain only the first occurrence of each signature, drop every
later edge whose signature was already seen anywhere before it. -/
def firstOccurrenceFilter (seen : List String) : List Triple → List Triple
  | [] => []
  | t :: ts =>
    if tripSig t ∈ seen then firstOccurrenceFilter seen ts
    else t :: firstOccurrenceFilter (tripSig t :: seen) ts

/-- Order-insensitive abstraction of a `FlowState`: the signature set, the
set of emitted records, and the three counters. -/
structure AbsState where
  seen : Finset String
  recs : Finset SecEdge
  nEdges : Nat
  boundary : Nat
  pii : Nat

/-- Abstraction map from concrete flow states. -/
def absOf (st : FlowState) : AbsState :=
  ⟨st.seen.toFinset, st.edges_out.toFinset, st.edges_out.length, st.boundary, st.pii⟩

/-- The aggregator's edge step on the abstract state. -/
def gstep (a : AbsState) (t : Triple) : AbsState :=
  if tripSig t ∈ a.seen then a
  else
    ⟨insert (tripSig t) a.seen, insert (tripRec t) a.recs, a.nEdges + 1,
     a.boundary + (if tripKind t = EdgeKind.Net then 1 else 0),
     a.pii + (if tripSens t then 1 else 0)⟩

/-- Two repository lists agree on outer order and file keys while each
file's inner function list is permuted. -/
def InnerPerm (a b : RepoMap) : Prop :=
  List.Forall₂ (fun x y => x.1 = y.1 ∧ x.2.Perm y.2) a b

/-- Two lists are iteration orders of one and the same nested map: inner
permutations composed with an outer permutation. -/
def IterEquiv (a b : RepoMap) : Prop :=
  ∃ c, InnerPerm a c ∧ List.Perm c b

/-- The classifier's rules in the spec's fixed evaluation order, as a
data-driven table (spec-side formulation for the order claim). -/
def ruleTable : List (EdgeKind × (String → Bool)) :=
  [(EdgeKind.Net, netMarker), (EdgeKind.Db, dbMarker), (EdgeKind.Auth, authMarker),
   (EdgeKind.Crypto, cryptoMarker), (EdgeKind.Log, logMarker)]

/-- Generic first-match interpretation of the rule table: the kind of the
first rule whose predicate fires, and none when no rule fires. -/
def firstRuleMatch (name : String) : Option EdgeKind :=
  (ruleTable.find? (fun r => r.2 name)).map (fun r => r.1)

/-- The literal substrings `is_secretish` searches for. -/
def secretMarkers : List String :=
  ["process.env", "configservice.get", "secret", "privatekey", "apikey", "token"]

/-- Well-formedness invariant of the builder state used for the bounds
claims: `Entry`/`Exit` sit at indices 0/1, `last` is in bounds, and every
edge endpoint is in bounds. -/
def CfgWF (st : BState) : Prop :=
  2 ≤ st.nodes.length ∧ st.nodes[0]? = some "Entry" ∧ st.nodes[1]? = some "Exit" ∧
    st.last < st.nodes.length ∧
    ∀ e ∈ st.edges, e.1 < st.nodes.length ∧ e.2 < st.nodes.length

/-- Invariant for the degree claims: `last` never equals the `Exit` index,
no edge leaves `Exit` (index 1), no edge enters `Entry` (index 0). -/
def DegInv (st : BState) : Prop :=
  2 ≤ st.nodes.length ∧ st.last ≠ 1 ∧ ∀ e ∈ st.edges, e.1 ≠ 1 ∧ e.2 ≠ 0

/-- Invariant for the unreachable `OTHER` arm: no node label starts with
`OTHER`. -/
def NoOtherLabels (st : BState) : Prop :=
  ∀ l ∈ st.nodes, sStarts l "OTHER" = false

/-- Concrete return-statement node for witnesses. -/
def retNode : SynNode := .mk "return_statement" "return x;" [] []

/-- Concrete one-statement function body for witnesses. -/
def body1 : SynNode := .mk "statement_block" "" [retNode] []

/-- Concrete for-statement node for the loop-rule witness. -/
def loopNode : SynNode := .mk "for_statement" "for (;;) body" [] []

/-- Identifier leaf `jwt`. -/
def jwtIdent : SynNode := .mk "identifier" "jwt" [] []

/-- Property leaf `sign`. -/
def signProp : SynNode := .mk "property_identifier" "sign" [] []

/-- Member expression `jwt.sign`. -/
def jwtMember : SynNode :=
  .mk "member_expression" "jwt.sign" [jwtIdent, signProp]
    [("object", jwtIdent), ("property", signProp)]

/-- Call expression `jwt.sign(payload)`, whose flattened name matches both
the auth marker (`jwt`) and the crypto marker (`sign`). -/
def jwtSignCall : SynNode :=
  .mk "call_expression" "jwt.sign(payload)" [jwtMember] [("function", jwtMember)]

/-- CFG whose only edge ends in a label containing `USER ENTRY`. -/
def c1cfg : SimpleCfg := ⟨["x", "USER ENTRY (Nest route)"], [(0, 1)]⟩

/-- Repository map for the C1 counterexample. -/
def c1map : RepoMap := [("file", [("g", c1cfg)])]

/-- Repository map for the C1 witness: one edge into an `AUTH:` label. -/
def w1map : RepoMap := [("a.ts", [("g", ⟨["Entry", "AUTH: guard"], [(0, 1)]⟩)])]

/-- The edge the aggregator emits for `w1map`. -/
def w1edge : SecEdge := ⟨"g", "Entry", "AUTH: guard", EdgeKind.Auth, false⟩

/-- Two-line member expression whose second line mentions a secret. -/
def c2node : SynNode := .mk "member_expression" "a\n.secretKey" [] []

/-- CFG whose edge derives kind `Db` with signature
`f|Db|DB: q|Net|NET: w|e` under function name `f`. -/
def cfgA : SimpleCfg := ⟨["DB: q", "Net|NET: w|e"], [(0, 1)]⟩

/-- CFG whose edge derives kind `Net` with the same signature string under
function name `f|Db|DB: q`. -/
def cfgB : SimpleCfg := ⟨["NET: w", "e"], [(0, 1)]⟩

/-- One iteration order of the colliding repository map. -/
def c3A : RepoMap := [("file", [("f", cfgA), ("f|Db|DB: q", cfgB)])]

/-- The other iteration order of the same repository map. -/
def c3B : RepoMap := [("file", [("f|Db|DB: q", cfgB), ("f", cfgA)])]

/-- Collision-free repository map for the C3 witness, one order. -/
def w3A : RepoMap :=
  [("a.ts", [("g", ⟨["Entry", "Exit"], [(0, 1)]⟩),
             ("h", ⟨["Entry", "Exit", "NET: fetch(url)"], [(0, 2), (2, 1)]⟩)])]

/-- Collision-free repository map for the C3 witness, the other order. -/
def w3B : RepoMap :=
  [("a.ts", [("h", ⟨["Entry", "Exit", "NET: fetch(url)"], [(0, 2), (2, 1)]⟩),
             ("g", ⟨["Entry", "Exit"], [(0, 1)]⟩)])]

theorem listStarts_iff (p : List Char) : ∀ s : List Char,
    listStarts s p = true ↔ ∃ t, s = p ++ t := by
  induction p with
  | nil =>
    intro s
    simp [listStarts]
  | cons c ps ih =>
    intro s
    cases s with
    | nil => simp [listStarts]
    | cons a t =>
      simp only [listStarts, Bool.and_eq_true, beq_iff_eq, ih, List.cons_append]
      constructor
      · rintro ⟨h1, r, h2⟩
        exact ⟨r, by rw [h1, h2]⟩
      · rintro ⟨r, h⟩
        injection h with h1 h2
        exact ⟨h1, r, h2⟩

theorem listHasSub_iff (p : List Char) : ∀ s : List Char,
    listHasSub p s = true ↔ ∃ l r, s = l ++ p ++ r := by
  intro s
  induction s with
  | nil =>
    simp only [listHasSub, List.isEmpty_iff]
    constructor
    · rintro rfl; exact ⟨[], [], rfl⟩
    · rintro ⟨l, r, h⟩
      rcases List.append_eq_nil.1 (List.append_eq_nil.1 h.symm).1 with ⟨_, h2⟩
      exact h2
  | cons c t ih =>
    simp only [listHasSub, Bool.or_eq_true, listStarts_iff, ih]
    constructor
    · rintro (⟨r, h⟩ | ⟨l, r, h⟩)
      · exact ⟨[], r, by simpa using h⟩
      · exact ⟨c :: l, r, by simp [h]⟩
    · rintro ⟨l, r, h⟩
      cases l with
      | nil => exact Or.inl ⟨r, by simpa using h⟩
      | cons x l' =>
        injection h with h1 h2
        exact Or.inr ⟨l', r, h2⟩

theorem sContains_iff (s pat : String) :
    sContains s pat = true ↔ ∃ l r, s.data = l ++ pat.data ++ r :=
  listHasSub_iff pat.data s.data

/-- C2 counterexample: `is_secretish` on a two-line member expression whose
second line mentions a secret returns `false`, although the lower-cased
full source text of the node does contain the literal substring `secret`
(the function only inspects the first-line snippet). -/
theorem is_secretish_full_text_cex :
    is_secretish c2node = false ∧
      sContains (sToLower (SynNode.text c2node)) "secret" = true ∧
      SynNode.kind c2node = "member_expression" := by
  refine ⟨by decide, by decide, rfl⟩

/-- C2 (amended): for every syntax node, `is_secretish` returns `true` iff
the lower-cased first-line snippet of the node's source text (not the whole
node text) contains one of the markers `process.env`, `configservice.get`,
`secret`, `privatekey`, `apikey`, `token`. -/
theorem is_secretish_iff_marker (n : SynNode) :
    is_secretish n = true ↔
      ∃ m ∈ secretMarkers, ∃ l r, (sToLower (snippet n)).data = l ++ m.data ++ r := by
  constructor
  · intro h
    simp only [is_secretish, Bool.or_eq_true] at h
    rcases h with ((((h | h) | h) | h) | h) | h
    · exact ⟨"process.env", by decide, (sContains_iff _ _).1 h⟩
    · exact ⟨"configservice.get", by decide, (sContains_iff _ _).1 h⟩
    · exact ⟨"secret", by decide, (sContains_iff _ _).1 h⟩
    · exact ⟨"privatekey", by decide, (sContains_iff _ _).1 h⟩
    · exact ⟨"apikey", by decide, (sContains_iff _ _).1 h⟩
    · exact ⟨"token", by decide, (sContains_iff _ _).1 h⟩
  · rintro ⟨m, hm, hx⟩
    simp only [secretMarkers, List.mem_cons, List.not_mem_nil, or_false] at hm
    simp only [is_secretish, Bool.or_eq_true]
    rcases hm with rfl | rfl | rfl | rfl | rfl | rfl
    · exact Or.inl (Or.inl (Or.inl (Or.inl (Or.inl ((sContains_iff _ _).2 hx)))))
    · exact Or.inl (Or.inl (Or.inl (Or.inl (Or.inr ((sContains_iff _ _).2 hx)))))
    · exact Or.inl (Or.inl (Or.inl (Or.inr ((sContains_iff _ _).2 hx))))
    · exact Or.inl (Or.inl (Or.inr ((sContains_iff _ _).2 hx)))
    · exact Or.inl (Or.inr ((sContains_iff _ _).2 hx))
    · exact Or.inr ((sContains_iff _ _).2 hx)

/-- C8: the repeat-guarded append is idempotent — a second immediate append
of the identical label is a no-op; when `nodes[last]` already equals the
label the append is skipped entirely; otherwise exactly one node and one
edge are appended and `last` advances. -/
theorem push_tag_node_repeat_guard :
    (∀ (st : BState) (label : String),
       push_tag_node (push_tag_node st label) label = push_tag_node st label) ∧
    (∀ (st : BState) (label : String),
       st.nodes[st.last]? = some label → push_tag_node st label = st) ∧
    (∀ (st : BState) (label : String),
       st.nodes[st.last]? ≠ some label →
         (push_tag_node st label).nodes = st.nodes ++ [label] ∧
         (push_tag_node st label).edges = st.edges ++ [(st.last, st.nodes.length)] ∧
         (push_tag_node st label).last = st.nodes.length) := by
  have hskip : ∀ (st : BState) (label : String),
      st.nodes[st.last]? = some label → push_tag_node st label = st := by
    intro st label h
    simp [push_tag_node, h]
  refine ⟨?_, hskip, ?_⟩
  · intro st label
    by_cases h : st.nodes[st.last]? = some label
    · rw [hskip st label h, hskip st label h]
    · have hpush : push_tag_node st label = appendNode st label := by
        simp [push_tag_node, h]
      rw [hpush]
      apply hskip
      simp [appendNode]
  · intro st label h
    simp [push_tag_node, h, appendNode]

/-- C8 witness: instantiation of the guard and append cases at concrete
states. -/
theorem push_tag_node_repeat_guard_witness :
    push_tag_node ⟨["Entry", "Exit", "LOG: x"], [(0, 2)], 2⟩ "LOG: x"
        = ⟨["Entry", "Exit", "LOG: x"], [(0, 2)], 2⟩ ∧
      (push_tag_node ⟨["Entry", "Exit"], [], 0⟩ "LOG: x").nodes
        = ["Entry", "Exit"] ++ ["LOG: x"] :=
  ⟨push_tag_node_repeat_guard.2.1 ⟨["Entry", "Exit", "LOG: x"], [(0, 2)], 2⟩ "LOG: x" (by decide),
   (push_tag_node_repeat_guard.2.2 ⟨["Entry", "Exit"], [], 0⟩ "LOG: x" (by decide)).1⟩

/-- C7: for every visited `for`/`while` child the builder's per-child step
appends exactly one `Loop:` node together with exactly three edges — from
the previous `last` to the loop node, a self-loop, and an edge to `Exit`
(index 1) — and `last` advances to the loop node, regardless of the loop
body's contents. -/
theorem procChild_loop_rule (st : BState) (ch : SynNode)
    (h : SynNode.kind ch = "for_statement" ∨ SynNode.kind ch = "while_statement") :
    procChild st ch =
      ⟨st.nodes ++ ["Loop: " ++ snippet ch],
       st.edges ++ [(st.last, st.nodes.length), (st.nodes.length, st.nodes.length),
         (st.nodes.length, 1)],
       st.nodes.length⟩ := by
  rcases h with h | h <;>
    simp [procChild, stepKindRules, stepCallRule, stepSecretRule, stepDecoRule, h,
      appendLoopNode]

/-- C7 witness: the loop rule evaluated at a concrete `for` node. -/
theorem procChild_loop_rule_witness :
    procChild ⟨["Entry", "Exit"], [], 0⟩ loopNode =
      ⟨["Entry", "Exit", "Loop: for (;;) body"], [(0, 2), (2, 2), (2, 1)], 2⟩ := by
  rw [procChild_loop_rule ⟨["Entry", "Exit"], [], 0⟩ loopNode (Or.inl rfl)]
  decide

theorem procChild_pres (P : BState → Prop)
    (hA : ∀ st l, P st → P (appendNode st l))
    (hL : ∀ st l, P st → P (appendLoopNode st l)) :
    ∀ st ch, P st → P (procChild st ch) := by
  have hT : ∀ st l, P st → P (push_tag_node st l) := by
    intro st l h
    unfold push_tag_node
    split
    · exact h
    · exact hA st l h
  intro st ch h
  have h1 : P (stepKindRules st ch) := by
    unfold stepKindRules
    split
    · exact hA _ _ h
    · split
      · exact hL _ _ h
      · split
        · exact hA _ _ h
        · exact h
  have h2 : P (stepCallRule (stepKindRules st ch) ch) := by
    unfold stepCallRule
    split
    · split
      · exact hT _ _ h1
      · exact h1
    · exact h1
  have h3 : P (stepSecretRule (stepCallRule (stepKindRules st ch) ch) ch) := by
    unfold stepSecretRule
    split
    · exact hT _ _ h2
    · exact h2
  unfold procChild stepDecoRule
  split
  · dsimp only
    split
    · apply hT
      split
      · exact hT _ _ h3
      · exact h3
    · split
      · exact hT _ _ h3
      · exact h3
  · exact h3

theorem foldl_procChild_pres (P : BState → Prop)
    (hstep : ∀ st ch, P st → P (procChild st ch)) :
    ∀ (l : List SynNode) (st : BState), P st → P (l.foldl procChild st) := by
  intro l
  induction l with
  | nil => intro st h; exact h
  | cons n t ih => intro st h; exact ih _ (hstep _ _ h)

theorem cfgLoop_pres (P : BState → Prop)
    (hstep : ∀ st ch, P st → P (procChild st ch)) :
    ∀ (stack : List SynNode) (st : BState), P st → P (cfgLoop st stack) := by
  intro stack
  generalize hm : synSizeList stack = m
  induction m using Nat.strong_induction_on generalizing stack with
  | _ m ih =>
    cases stack with
    | nil =>
      intro st h
      simpa [cfgLoop] using h
    | cons n rest =>
      intro st h
      rw [cfgLoop]
      refine ih _ ?_ _ rfl _ (foldl_procChild_pres P hstep _ _ h)
      subst hm
      cases n with
      | mk k t ch f =>
        have happ : ∀ a b : List SynNode,
            synSizeList (a ++ b) = synSizeList a + synSizeList b := by
          intro a b
          induction a with
          | nil => simp [synSizeList]
          | cons x t ih2 => simp [synSizeList, ih2]; omega
        have hrev : ∀ a : List SynNode, synSizeList a.reverse = synSizeList a := by
          intro a
          induction a with
          | nil => rfl
          | cons x t ih2 => simp [synSizeList, List.reverse_cons, happ, ih2]; omega
        simp [synSizeList, happ, hrev, SynNode.children, synSize]

theorem appendNode_wf (st : BState) (l : String) (h : CfgWF st) : CfgWF (appendNode st l) := by
  obtain ⟨h1, h2, h3, h4, h5⟩ := h
  refine ⟨?_, ?_, ?_, ?_, ?_⟩
  · simp [appendNode]; omega
  · rw [show (appendNode st l).nodes = st.nodes ++ [l] from rfl,
      List.getElem?_append_left (by omega)]
    exact h2
  · rw [show (appendNode st l).nodes = st.nodes ++ [l] from rfl,
      List.getElem?_append_left (by omega)]
    exact h3
  · simp [appendNode]
  · intro e he
    rw [show (appendNode st l).edges = st.edges ++ [(st.last, st.nodes.length)] from rfl] at he
    rw [show (appendNode st l).nodes = st.nodes ++ [l] from rfl]
    rw [List.length_append]
    rcases List.mem_append.1 he with he | he
    · obtain ⟨ha, hb⟩ := h5 e he
      constructor <;> simp <;> omega
    · rw [List.mem_singleton.1 he]
      constructor <;> simp <;> omega

theorem appendLoopNode_wf (st : BState) (l : String) (h : CfgWF st) :
    CfgWF (appendLoopNode st l) := by
  obtain ⟨h1, h2, h3, h4, h5⟩ := h
  refine ⟨?_, ?_, ?_, ?_, ?_⟩
  · simp [appendLoopNode]; omega
  · rw [show (appendLoopNode st l).nodes = st.nodes ++ [l] from rfl,
      List.getElem?_append_left (by omega)]
    exact h2
  · rw [show (appendLoopNode st l).nodes = st.nodes ++ [l] from rfl,
      List.getElem?_append_left (by omega)]
    exact h3
  · simp [appendLoopNode]
  · intro e he
    rw [show (appendLoopNode st l).edges = st.edges ++
        [(st.last, st.nodes.length), (st.nodes.length, st.nodes.length),
         (st.nodes.length, 1)] from rfl] at he
    rw [show (appendLoopNode st l).nodes = st.nodes ++ [l] from rfl]
    rw [List.length_append]
    rcases List.mem_append.1 he with he | he
    · obtain ⟨ha, hb⟩ := h5 e he
      constructor <;> simp <;> omega
    · simp only [List.mem_cons, List.not_mem_nil, or_false] at he
      rcases he with he | he | he <;> subst he <;> constructor <;> simp <;> omega

theorem retainNewEdges_subset :
    ∀ (l seen : List (Nat × Nat)) (e : Nat × Nat), e ∈ retainNewEdges seen l → e ∈ l := by
  intro l
  induction l with
  | nil => intro seen e he; cases he
  | cons x t ih =>
    intro seen e he
    unfold retainNewEdges at he
    split at he
    · exact List.mem_cons_of_mem x (ih seen e he)
    · rcases List.mem_cons.1 he with he | he
      · rw [he]; exact List.mem_cons_self x t
      · exact List.mem_cons_of_mem x (ih _ e he)

theorem retainNewEdges_mem :
    ∀ (l seen : List (Nat × Nat)) (e : Nat × Nat),
      e ∈ l → e ∉ seen → e ∈ retainNewEdges seen l := by
  intro l
  induction l with
  | nil => intro seen e he; cases he
  | cons x t ih =>
    intro seen e he hns
    unfold retainNewEdges
    rcases List.mem_cons.1 he with he | he
    · subst he
      split
      · exact absurd (by assumption) hns
      · exact List.mem_cons_self e _
    · split
      · exact ih seen e he hns
      · by_cases hx : e = x
        · subst hx; exact List.mem_cons_self e _
        · refine List.mem_cons_of_mem x (ih _ e he ?_)
          intro hmem
          rcases List.mem_cons.1 hmem with hc | hc
          · exact hx hc
          · exact hns hc

/-- C6: every produced `SimpleCfg`, before and after `dedupe_cfg_edges`,
has `"Entry"` at index 0 and `"Exit"` at index 1 and all edge endpoint
indices in bounds; the final edge appended by the builder goes from the
last-visited node to `Exit` (index 1), so every CFG (also after the dedupe
pass) contains an edge into `Exit`. -/
theorem build_structured_cfg_wellformed (body : SynNode) :
    ((build_structured_cfg body).nodes[0]? = some "Entry" ∧
     (build_structured_cfg body).nodes[1]? = some "Exit" ∧
     ∀ e ∈ (build_structured_cfg body).edges,
       e.1 < (build_structured_cfg body).nodes.length ∧
       e.2 < (build_structured_cfg body).nodes.length) ∧
    ((dedupe_cfg_edges (build_structured_cfg body)).nodes[0]? = some "Entry" ∧
     (dedupe_cfg_edges (build_structured_cfg body)).nodes[1]? = some "Exit" ∧
     ∀ e ∈ (dedupe_cfg_edges (build_structured_cfg body)).edges,
       e.1 < (dedupe_cfg_edges (build_structured_cfg body)).nodes.length ∧
       e.2 < (dedupe_cfg_edges (build_structured_cfg body)).nodes.length) ∧
    ((build_structured_cfg body).edges.getLast?.map Prod.snd = some 1) ∧
    (∃ e ∈ (build_structured_cfg body).edges, e.2 = 1) ∧
    (∃ e ∈ (dedupe_cfg_edges (build_structured_cfg body)).edges, e.2 = 1) := by
  have hst : CfgWF (cfgLoop ⟨["Entry", "Exit"], [], 0⟩ [body]) := by
    apply cfgLoop_pres CfgWF (procChild_pres CfgWF appendNode_wf appendLoopNode_wf)
    exact ⟨by simp, rfl, rfl, by simp, by simp⟩
  obtain ⟨h1, h2, h3, h4, h5⟩ := hst
  have hb : build_structured_cfg body =
      ⟨(cfgLoop ⟨["Entry", "Exit"], [], 0⟩ [body]).nodes,
       (cfgLoop ⟨["Entry", "Exit"], [], 0⟩ [body]).edges ++
         [((cfgLoop ⟨["Entry", "Exit"], [], 0⟩ [body]).last, 1)]⟩ := rfl
  have hbounds : ∀ e ∈ (build_structured_cfg body).edges,
      e.1 < (build_structured_cfg body).nodes.length ∧
      e.2 < (build_structured_cfg body).nodes.length := by
    rw [hb]
    dsimp only
    intro e he
    rcases List.mem_append.1 he with he | he
    · exact h5 e he
    · rw [List.mem_singleton.1 he]
      exact ⟨h4, by omega⟩
  have hexit : ((cfgLoop ⟨["Entry", "Exit"], [], 0⟩ [body]).last, 1) ∈
      (build_structured_cfg body).edges := by
    rw [hb]
    exact List.mem_append_right _ (List.mem_singleton.2 rfl)
  refine ⟨⟨by rw [hb]; exact h2, by rw [hb]; exact h3, hbounds⟩,
    ⟨by rw [hb]; exact h2, by rw [hb]; exact h3, ?_⟩, ?_, ?_, ?_⟩
  · intro e he
    exact hbounds e (retainNewEdges_subset _ [] e he)
  · rw [hb]
    rw [List.getLast?_concat]
    rfl
  · exact ⟨_, hexit, rfl⟩
  · exact ⟨_, retainNewEdges_mem _ [] _ hexit (by simp), rfl⟩

theorem cfgLoop_body1 :
    cfgLoop ⟨["Entry", "Exit"], [], 0⟩ [body1] =
      ⟨["Entry", "Exit", "Return: return x;"], [(0, 2)], 2⟩ := by
  rw [cfgLoop.eq_def]
  dsimp only
  rw [show SynNode.children body1 = [retNode] from rfl]
  simp only [List.reverse_cons, List.reverse_nil, List.nil_append, List.append_nil,
    List.foldl_cons, List.foldl_nil]
  rw [cfgLoop.eq_def]
  dsimp only
  rw [show SynNode.children retNode = [] from rfl]
  simp only [List.reverse_nil, List.nil_append, List.foldl_nil]
  rw [cfgLoop.eq_def]
  decide

theorem body1_cfg_eval :
    build_structured_cfg body1 =
      ⟨["Entry", "Exit", "Return: return x;"], [(0, 2), (2, 1)]⟩ := by
  unfold build_structured_cfg
  rw [cfgLoop_body1]
  rfl

/-- C6 witness: the bounds property applied to the concrete edge `(0, 2)`
of the CFG built from a one-return-statement body. -/
theorem build_structured_cfg_wellformed_witness :
    0 < (build_structured_cfg body1).nodes.length ∧
      2 < (build_structured_cfg body1).nodes.length :=
  (build_structured_cfg_wellformed body1).1.2.2 (0, 2) (by rw [body1_cfg_eval]; decide)

theorem appendNode_deg (st : BState) (l : String) (h : DegInv st) : DegInv (appendNode st l) := by
  obtain ⟨h1, h2, h3⟩ := h
  refine ⟨?_, ?_, ?_⟩
  · simp [appendNode]; omega
  · simp [appendNode]; omega
  · intro e he
    rw [show (appendNode st l).edges = st.edges ++ [(st.last, st.nodes.length)] from rfl] at he
    rcases List.mem_append.1 he with he | he
    · exact h3 e he
    · rw [List.mem_singleton.1 he]
      exact ⟨h2, show st.nodes.length ≠ 0 by omega⟩

theorem appendLoopNode_deg (st : BState) (l : String) (h : DegInv st) :
    DegInv (appendLoopNode st l) := by
  obtain ⟨h1, h2, h3⟩ := h
  refine ⟨?_, ?_, ?_⟩
  · simp [appendLoopNode]; omega
  · simp [appendLoopNode]; omega
  · intro e he
    rw [show (appendLoopNode st l).edges = st.edges ++
        [(st.last, st.nodes.length), (st.nodes.length, st.nodes.length),
         (st.nodes.length, 1)] from rfl] at he
    rcases List.mem_append.1 he with he | he
    · exact h3 e he
    · simp only [List.mem_cons, List.not_mem_nil, or_false] at he
      rcases he with he | he | he <;> subst he
      · exact ⟨h2, show st.nodes.length ≠ 0 by omega⟩
      · exact ⟨show st.nodes.length ≠ 1 by omega, show st.nodes.length ≠ 0 by omega⟩
      · exact ⟨show st.nodes.length ≠ 1 by omega, show (1 : Nat) ≠ 0 by omega⟩

/-- C10: in every CFG produced by `build_structured_cfg`, no edge has
source index 1 and no edge has destination index 0 — `Exit` has out-degree
zero and `Entry` has in-degree zero — and `dedupe_cfg_edges` preserves
this, since it only removes edges. -/
theorem exit_entry_degrees (body : SynNode) :
    (∀ e ∈ (build_structured_cfg body).edges, e.1 ≠ 1 ∧ e.2 ≠ 0) ∧
    (∀ e ∈ (dedupe_cfg_edges (build_structured_cfg body)).edges, e.1 ≠ 1 ∧ e.2 ≠ 0) := by
  have hst : DegInv (cfgLoop ⟨["Entry", "Exit"], [], 0⟩ [body]) := by
    apply cfgLoop_pres DegInv (procChild_pres DegInv appendNode_deg appendLoopNode_deg)
    refine ⟨by simp, by simp, by simp⟩
  obtain ⟨h1, h2, h3⟩ := hst
  have hb : (build_structured_cfg body).edges =
      (cfgLoop ⟨["Entry", "Exit"], [], 0⟩ [body]).edges ++
        [((cfgLoop ⟨["Entry", "Exit"], [], 0⟩ [body]).last, 1)] := rfl
  have hmain : ∀ e ∈ (build_structured_cfg body).edges, e.1 ≠ 1 ∧ e.2 ≠ 0 := by
    rw [hb]
    intro e he
    rcases List.mem_append.1 he with he | he
    · exact h3 e he
    · rw [List.mem_singleton.1 he]
      exact ⟨h2, by omega⟩
  exact ⟨hmain, fun e he => hmain e (retainNewEdges_subset _ [] e he)⟩

/-- C10 witness: the degree property applied to the concrete edge `(0, 2)`. -/
theorem exit_entry_degrees_witness : (0 : Nat) ≠ 1 ∧ (2 : Nat) ≠ 0 :=
  (exit_entry_degrees body1).1 (0, 2) (by rw [body1_cfg_eval]; decide)

theorem classify_call_range_aux {c : SynNode} {k : EdgeKind}
    (h : classify_call c = some k) :
    k = EdgeKind.Net ∨ k = EdgeKind.Db ∨ k = EdgeKind.Auth ∨ k = EdgeKind.Crypto
      ∨ k = EdgeKind.Log := by
  unfold classify_call at h
  dsimp only at h
  split at h
  · exact Or.inl (Option.some.inj h).symm
  · split at h
    · exact Or.inr (Or.inl (Option.some.inj h).symm)
    · split at h
      · exact Or.inr (Or.inr (Or.inl (Option.some.inj h).symm))
      · split at h
        · exact Or.inr (Or.inr (Or.inr (Or.inl (Option.some.inj h).symm)))
        · split at h
          · exact Or.inr (Or.inr (Or.inr (Or.inr (Option.some.inj h).symm)))
          · exact absurd h (by simp)

theorem sStarts_OTHER_false {s : String} {c : Char} {rest : List Char}
    (h : s.data = c :: rest) (hc : c ≠ 'O') : sStarts s "OTHER" = false := by
  unfold sStarts
  rw [h, show ("OTHER" : String).data = 'O' :: ['T', 'H', 'E', 'R'] from rfl]
  simp [listStarts, hc]

theorem label_not_OTHER (p s : String) (c : Char) (rest : List Char)
    (hp : p.data = c :: rest) (hc : c ≠ 'O') : sStarts (p ++ s) "OTHER" = false := by
  have hd : (p ++ s).data = c :: (rest ++ s.data) := by
    have hps : (p ++ s).data = p.data ++ s.data := rfl
    rw [hps, hp, List.cons_append]
  exact sStarts_OTHER_false hd hc

theorem appendNode_noOther {st : BState} {l : String} (h : NoOtherLabels st)
    (hl : sStarts l "OTHER" = false) : NoOtherLabels (appendNode st l) := by
  intro x hx
  rw [show (appendNode st l).nodes = st.nodes ++ [l] from rfl] at hx
  rcases List.mem_append.1 hx with hx | hx
  · exact h x hx
  · rw [List.mem_singleton.1 hx]; exact hl

theorem appendLoopNode_noOther {st : BState} {l : String} (h : NoOtherLabels st)
    (hl : sStarts l "OTHER" = false) : NoOtherLabels (appendLoopNode st l) := by
  intro x hx
  rw [show (appendLoopNode st l).nodes = st.nodes ++ [l] from rfl] at hx
  rcases List.mem_append.1 hx with hx | hx
  · exact h x hx
  · rw [List.mem_singleton.1 hx]; exact hl

theorem push_tag_noOther {st : BState} {l : String} (h : NoOtherLabels st)
    (hl : sStarts l "OTHER" = false) : NoOtherLabels (push_tag_node st l) := by
  unfold push_tag_node
  split
  · exact h
  · exact appendNode_noOther h hl

theorem stepKindRules_noOther (st : BState) (ch : SynNode) (h : NoOtherLabels st) :
    NoOtherLabels (stepKindRules st ch) := by
  unfold stepKindRules
  split
  · exact appendNode_noOther h (label_not_OTHER "If: " _ 'I' _ rfl (by decide))
  · split
    · exact appendLoopNode_noOther h (label_not_OTHER "Loop: " _ 'L' _ rfl (by decide))
    · split
      · exact appendNode_noOther h (label_not_OTHER "Return: " _ 'R' _ rfl (by decide))
      · exact h

theorem calltag_not_OTHER {ch : SynNode} {k : EdgeKind} (h : classify_call ch = some k) :
    sStarts (kindTagText k ++ ": " ++ snippet ch) "OTHER" = false := by
  rcases classify_call_range_aux h with h1 | h1 | h1 | h1 | h1 <;> subst h1 <;>
    exact label_not_OTHER _ _ _ _ rfl (by decide)

theorem stepCallRule_noOther (st : BState) (ch : SynNode) (h : NoOtherLabels st) :
    NoOtherLabels (stepCallRule st ch) := by
  unfold stepCallRule
  split
  · split
    · rename_i k hcc
      exact push_tag_noOther h (calltag_not_OTHER hcc)
    · exact h
  · exact h

theorem stepSecretRule_noOther (st : BState) (ch : SynNode) (h : NoOtherLabels st) :
    NoOtherLabels (stepSecretRule st ch) := by
  unfold stepSecretRule
  split
  · exact push_tag_noOther h (label_not_OTHER "SECRET: " _ 'S' _ rfl (by decide))
  · exact h

theorem stepDecoRule_noOther (st : BState) (ch : SynNode) (h : NoOtherLabels st) :
    NoOtherLabels (stepDecoRule st ch) := by
  unfold stepDecoRule
  split
  · dsimp only
    split
    · apply push_tag_noOther
      · split
        · exact push_tag_noOther h (sStarts_OTHER_false rfl (by decide))
        · exact h
      · exact label_not_OTHER "AUTH: " _ 'A' _ rfl (by decide)
    · split
      · exact push_tag_noOther h (sStarts_OTHER_false rfl (by decide))
      · exact h
  · exact h

theorem procChild_noOther : ∀ (st : BState) (ch : SynNode),
    NoOtherLabels st → NoOtherLabels (procChild st ch) := by
  intro st ch h
  exact stepDecoRule_noOther _ _
    (stepSecretRule_noOther _ _ (stepCallRule_noOther _ _ (stepKindRules_noOther _ _ h)))

theorem flattenName_jwtIdent : flattenName jwtIdent = ["jwt"] := by
  rw [flattenName]
  simp [jwtIdent, SynNode.kind]
  decide

theorem flattenName_jwtMember : flattenName jwtMember = ["jwt", "sign"] := by
  rw [flattenName]
  rw [show childByField jwtMember "object" = some jwtIdent from rfl,
      show childByField jwtMember "property" = some signProp from rfl]
  simp [jwtMember, SynNode.kind, flattenName_jwtIdent]
  decide

theorem jwt_call_name : call_name jwtSignCall = some "jwt.sign" := by
  unfold call_name
  rw [show childByField jwtSignCall "function" = some jwtMember from rfl]
  simp [flattenName_jwtMember]
  decide

theorem jwtSignCall_eval : classify_call jwtSignCall = some EdgeKind.Auth := by
  unfold classify_call
  rw [jwt_call_name]
  decide

/-- C9: `classify_call` only ever returns one of `Net`, `Db`, `Auth`,
`Crypto`, `Log` (never `Branch`, `Loop`, `Return`, `Secret` or `Other`),
its tag prefix is therefore never the `OTHER` fallback of the builder's
match, and no node label of any CFG produced by `build_structured_cfg`
starts with `OTHER`. -/
theorem classify_call_closed_range :
    (∀ (c : SynNode) (k : EdgeKind), classify_call c = some k →
       k = EdgeKind.Net ∨ k = EdgeKind.Db ∨ k = EdgeKind.Auth ∨ k = EdgeKind.Crypto
         ∨ k = EdgeKind.Log) ∧
    (∀ (c : SynNode) (k : EdgeKind), classify_call c = some k →
       kindTagText k ≠ "OTHER") ∧
    (∀ body : SynNode, ∀ l ∈ (build_structured_cfg body).nodes,
       sStarts l "OTHER" = false) := by
  refine ⟨fun c k h => classify_call_range_aux h, ?_, ?_⟩
  · intro c k h
    rcases classify_call_range_aux h with h1 | h1 | h1 | h1 | h1 <;> subst h1 <;> decide
  · intro body
    have hst : NoOtherLabels (cfgLoop ⟨["Entry", "Exit"], [], 0⟩ [body]) := by
      apply cfgLoop_pres NoOtherLabels procChild_noOther
      intro l hl
      rcases List.mem_cons.1 hl with hl | hl
      · subst hl; decide
      · rcases List.mem_cons.1 hl with hl | hl
        · subst hl; decide
        · cases hl
    exact hst

/-- C9 witness: the range property applied to the concrete `jwt.sign` call
(whose classification is `Auth`), and the label property applied to the
`Entry` label of a concrete CFG. -/
theorem classify_call_closed_range_witness :
    (EdgeKind.Auth = EdgeKind.Net ∨ EdgeKind.Auth = EdgeKind.Db
       ∨ EdgeKind.Auth = EdgeKind.Auth ∨ EdgeKind.Auth = EdgeKind.Crypto
       ∨ EdgeKind.Auth = EdgeKind.Log) ∧
      kindTagText EdgeKind.Auth ≠ "OTHER" ∧ sStarts "Entry" "OTHER" = false :=
  ⟨classify_call_closed_range.1 jwtSignCall EdgeKind.Auth jwtSignCall_eval,
   classify_call_closed_range.2.1 jwtSignCall EdgeKind.Auth jwtSignCall_eval,
   classify_call_closed_range.2.2 body1 "Entry" (by rw [body1_cfg_eval]; decide)⟩

/-- C5: `classify_call` equals the generic first-match interpretation of
the ordered rule table (Net, Db, Auth, Crypto, Log — first match wins,
`none` when no rule fires), and the concrete call `jwt.sign(payload)` —
whose flattened lower-cased name matches both the auth marker (`jwt`) and
the crypto marker (`sign`) — classifies as `Auth`, not `Crypto`. -/
theorem classify_call_fixed_order :
    (∀ call : SynNode,
       classify_call call = firstRuleMatch (sToLower ((call_name call).getD ""))) ∧
    classify_call jwtSignCall = some EdgeKind.Auth ∧
    authMarker (sToLower ((call_name jwtSignCall).getD "")) = true ∧
    cryptoMarker (sToLower ((call_name jwtSignCall).getD "")) = true := by
  refine ⟨?_, jwtSignCall_eval, ?_, ?_⟩
  · intro call
    unfold classify_call firstRuleMatch ruleTable
    cases h1 : netMarker (sToLower ((call_name call).getD "")) <;>
    cases h2 : dbMarker (sToLower ((call_name call).getD "")) <;>
    cases h3 : authMarker (sToLower ((call_name call).getD "")) <;>
    cases h4 : cryptoMarker (sToLower ((call_name call).getD "")) <;>
    cases h5 : logMarker (sToLower ((call_name call).getD "")) <;>
      simp [List.find?, h1, h2, h3, h4, h5]
  · rw [jwt_call_name]; decide
  · rw [jwt_call_name]; decide

theorem foldl_flatMap {α β γ : Type} (f : β → α → β) (g : γ → List α) (l : List γ) (b : β) :
    (l.flatMap g).foldl f b = l.foldl (fun acc c => (g c).foldl f acc) b := by
  induction l generalizing b with
  | nil => rfl
  | cons x t ih =>
    simp only [List.flatMap_cons, List.foldl_append, List.foldl_cons]
    exact ih _

theorem flow_state_eq (all : RepoMap) :
    all.foldl
      (fun acc fe => fe.2.foldl
        (fun acc fc => fc.2.edges.foldl (procEdge fc.1 fc.2.nodes) acc) acc)
      (⟨[], [], 0, 0⟩ : FlowState)
      = (flatTriples all).foldl procT ⟨[], [], 0, 0⟩ := by
  unfold flatTriples
  rw [foldl_flatMap]
  congr 1
  funext acc fe
  rw [foldl_flatMap]
  congr 1
  funext acc2 fc
  rw [List.foldl_map]
  rfl

theorem to_security_flow_flat (all : RepoMap) :
    to_security_flow all =
      ⟨⟨(all.map (fun fe => fe.2.length)).sum,
        ((flatTriples all).foldl procT ⟨[], [], 0, 0⟩).edges_out.length,
        ((flatTriples all).foldl procT ⟨[], [], 0, 0⟩).boundary,
        ((flatTriples all).foldl procT ⟨[], [], 0, 0⟩).pii⟩,
       ((flatTriples all).foldl procT ⟨[], [], 0, 0⟩).edges_out⟩ := by
  unfold to_security_flow
  rw [flow_state_eq]

theorem procT_eq (st : FlowState) (t : Triple) :
    procT st t =
      if tripSig t ∈ st.seen then st
      else
        ⟨st.edges_out ++ [tripRec t], tripSig t :: st.seen,
         st.boundary + (if tripKind t = EdgeKind.Net then 1 else 0),
         st.pii + (if tripSens t then 1 else 0)⟩ := rfl

theorem foldl_procT_spec (l : List Triple) : ∀ st : FlowState,
    ((l.foldl procT st).edges_out
        = st.edges_out ++ (firstOccurrenceFilter st.seen l).map tripRec) ∧
    ((l.foldl procT st).seen
        = ((firstOccurrenceFilter st.seen l).map tripSig).reverse ++ st.seen) ∧
    ((l.foldl procT st).boundary
        = st.boundary + ((firstOccurrenceFilter st.seen l).filter
            (fun t => tripKind t == EdgeKind.Net)).length) ∧
    ((l.foldl procT st).pii
        = st.pii + ((firstOccurrenceFilter st.seen l).filter
            (fun t => tripSens t)).length) := by
  induction l with
  | nil => intro st; simp [firstOccurrenceFilter]
  | cons t ts ih =>
    intro st
    rw [List.foldl_cons, procT_eq]
    by_cases h : tripSig t ∈ st.seen
    · rw [if_pos h]
      unfold firstOccurrenceFilter
      rw [if_pos h]
      exact ih st
    · rw [if_neg h]
      unfold firstOccurrenceFilter
      rw [if_neg h]
      obtain ⟨ih1, ih2, ih3, ih4⟩ := ih ⟨st.edges_out ++ [tripRec t], tripSig t :: st.seen,
        st.boundary + (if tripKind t = EdgeKind.Net then 1 else 0),
        st.pii + (if tripSens t then 1 else 0)⟩
      refine ⟨?_, ?_, ?_, ?_⟩
      · rw [ih1]
        simp [List.append_assoc]
      · rw [ih2]
        simp [List.reverse_cons, List.append_assoc]
      · rw [ih3]
        dsimp only
        rw [List.filter_cons]
        by_cases hk : tripKind t = EdgeKind.Net
        · simp only [hk, beq_self_eq_true, if_pos]
          simp [List.length_cons]
          omega
        · have hkb : (tripKind t == EdgeKind.Net) = false := by
            simp [hk]
          simp [hkb, hk]
      · rw [ih4]
        dsimp only
        rw [List.filter_cons]
        by_cases hs : tripSens t = true
        · simp [hs]
          omega
        · simp [hs, Bool.of_not_eq_true hs]

theorem flow_edges_eq_aux (all : RepoMap) :
    (to_security_flow all).edges
      = (firstOccurrenceFilter [] (flatTriples all)).map tripRec := by
  obtain ⟨h1, h2, h3, h4⟩ := foldl_procT_spec (flatTriples all) ⟨[], [], 0, 0⟩
  rw [to_security_flow_flat]
  dsimp only
  rw [h1]
  simp

/-- C4: the aggregator retains exactly the first-seen occurrence of each
dedupe signature across the whole flattened repository map (also across
files), and the emitted counts are computed over this deduplicated list:
the output edge list is the first-occurrence filter of all edge
occurrences, `index.edges` is its length, `boundary_crossings` counts its
Net-kind entries and `pii_edges` its sensitive entries — every later edge
whose signature was already seen is dropped from both the list and the
counts. -/
theorem to_security_flow_first_seen (all : RepoMap) :
    (to_security_flow all).edges
        = (firstOccurrenceFilter [] (flatTriples all)).map tripRec ∧
    (to_security_flow all).index.edges
        = (firstOccurrenceFilter [] (flatTriples all)).length ∧
    (to_security_flow all).index.boundary_crossings
        = ((firstOccurrenceFilter [] (flatTriples all)).filter
            (fun t => tripKind t == EdgeKind.Net)).length ∧
    (to_security_flow all).index.pii_edges
        = ((firstOccurrenceFilter [] (flatTriples all)).filter
            (fun t => tripSens t)).length := by
  obtain ⟨h1, h2, h3, h4⟩ := foldl_procT_spec (flatTriples all) ⟨[], [], 0, 0⟩
  refine ⟨flow_edges_eq_aux all, ?_, ?_, ?_⟩
  · rw [to_security_flow_flat]
    dsimp only
    rw [h1]
    simp
  · rw [to_security_flow_flat]
    dsimp only
    rw [h3]
    simp
  · rw [to_security_flow_flat]
    dsimp only
    rw [h4]
    simp

/-- C1 counterexample: an edge whose destination label contains the marker
`USER ENTRY` (with no `NET:`/`DB:` prefix on either label and no `AUTH:`
prefix anywhere) is assigned kind `Other`, not `Auth` — the aggregator
consults only the source label for the `USER ENTRY` marker. -/
theorem flow_auth_rule_cex :
    (to_security_flow c1map).edges
        = [⟨"g", "x", "USER ENTRY (Nest route)", EdgeKind.Other, false⟩] ∧
      sContains "USER ENTRY (Nest route)" "USER ENTRY" = true ∧
      sStarts "x" "NET:" = false ∧ sStarts "USER ENTRY (Nest route)" "NET:" = false ∧
      sStarts "x" "DB:" = false ∧ sStarts "USER ENTRY (Nest route)" "DB:" = false ∧
      EdgeKind.Other ≠ EdgeKind.Auth :=
  ⟨by decide, by decide, by decide, by decide, by decide, by decide, by decide⟩

/-- C1 (amended): for every edge emitted by `to_security_flow` whose labels
carry no `NET:` or `DB:` prefix, if either label starts with `AUTH:` or the
SOURCE label contains the literal marker `USER ENTRY`, the re-derived kind
is `Auth`; a `USER ENTRY` marker only in the destination label does not
trigger the rule. -/
theorem flow_auth_rule (all : RepoMap) (e : SecEdge)
    (he : e ∈ (to_security_flow all).edges)
    (h1 : sStarts e.src "NET:" = false) (h2 : sStarts e.dst "NET:" = false)
    (h3 : sStarts e.src "DB:" = false) (h4 : sStarts e.dst "DB:" = false)
    (h5 : sStarts e.src "AUTH:" = true ∨ sStarts e.dst "AUTH:" = true
      ∨ sContains e.src "USER ENTRY" = true) :
    e.kind = EdgeKind.Auth := by
  have hk : e.kind = deriveKind e.src e.dst := by
    rw [flow_edges_eq_aux] at he
    obtain ⟨t, ht, rfl⟩ := List.mem_map.1 he
    rfl
  rw [hk]
  unfold deriveKind
  rw [h1, h2, h3, h4]
  rcases h5 with h5 | h5 | h5 <;> simp [h5]

/-- C1 witness: the amended rule applied to the concrete edge of `w1map`,
whose destination label starts with `AUTH:`. -/
theorem flow_auth_rule_witness : w1edge.kind = EdgeKind.Auth :=
  flow_auth_rule w1map w1edge (by decide) (by decide) (by decide) (by decide) (by decide)
    (Or.inr (Or.inl (by decide)))

theorem absOf_procT (st : FlowState) (t : Triple) : absOf (procT st t) = gstep (absOf st) t := by
  rw [procT_eq]
  by_cases h : tripSig t ∈ st.seen
  · have h' : tripSig t ∈ (absOf st).seen := by simpa [absOf, List.mem_toFinset] using h
    rw [if_pos h]
    unfold gstep
    rw [if_pos h']
  · have h' : tripSig t ∉ (absOf st).seen := by simpa [absOf, List.mem_toFinset] using h
    rw [if_neg h]
    unfold gstep
    rw [if_neg h']
    unfold absOf
    simp [List.toFinset_append, Finset.insert_eq, Finset.union_comm]

theorem absOf_foldl (l : List Triple) : ∀ st : FlowState,
    absOf (l.foldl procT st) = l.foldl gstep (absOf st) := by
  induction l with
  | nil => intro st; rfl
  | cons t ts ih =>
    intro st
    rw [List.foldl_cons, List.foldl_cons, ih, absOf_procT]

theorem gstep_comm {t₁ t₂ : Triple}
    (hc : tripSig t₁ = tripSig t₂ → tripRec t₁ = tripRec t₂) (a : AbsState) :
    gstep (gstep a t₁) t₂ = gstep (gstep a t₂) t₁ := by
  by_cases h1 : tripSig t₁ ∈ a.seen <;> by_cases h2 : tripSig t₂ ∈ a.seen
  · have e1 : gstep a t₁ = a := by simp [gstep, h1]
    have e2 : gstep a t₂ = a := by simp [gstep, h2]
    rw [e1, e2, e1]
  · rw [show gstep a t₁ = a from by simp [gstep, h1]]
    have e2 : gstep a t₂ = ⟨insert (tripSig t₂) a.seen, insert (tripRec t₂) a.recs,
        a.nEdges + 1, a.boundary + (if tripKind t₂ = EdgeKind.Net then 1 else 0),
        a.pii + (if tripSens t₂ then 1 else 0)⟩ := by
      simp [gstep, h2]
    rw [e2]
    simp [gstep, Finset.mem_insert, h1]
  · rw [show gstep a t₂ = a from by simp [gstep, h2]]
    have e1 : gstep a t₁ = ⟨insert (tripSig t₁) a.seen, insert (tripRec t₁) a.recs,
        a.nEdges + 1, a.boundary + (if tripKind t₁ = EdgeKind.Net then 1 else 0),
        a.pii + (if tripSens t₁ then 1 else 0)⟩ := by
      simp [gstep, h1]
    rw [e1]
    simp [gstep, Finset.mem_insert, h2]
  · have e1 : gstep a t₁ = ⟨insert (tripSig t₁) a.seen, insert (tripRec t₁) a.recs,
        a.nEdges + 1, a.boundary + (if tripKind t₁ = EdgeKind.Net then 1 else 0),
        a.pii + (if tripSens t₁ then 1 else 0)⟩ := by
      simp [gstep, h1]
    have e2 : gstep a t₂ = ⟨insert (tripSig t₂) a.seen, insert (tripRec t₂) a.recs,
        a.nEdges + 1, a.boundary + (if tripKind t₂ = EdgeKind.Net then 1 else 0),
        a.pii + (if tripSens t₂ then 1 else 0)⟩ := by
      simp [gstep, h2]
    rw [e1, e2]
    by_cases hs : tripSig t₁ = tripSig t₂
    · have hr := hc hs
      have hkind : tripKind t₁ = tripKind t₂ := congrArg SecEdge.kind hr
      have hsens : tripSens t₁ = tripSens t₂ := congrArg SecEdge.sensitive hr
      rw [show gstep (⟨insert (tripSig t₁) a.seen, insert (tripRec t₁) a.recs,
          a.nEdges + 1, a.boundary + (if tripKind t₁ = EdgeKind.Net then 1 else 0),
          a.pii + (if tripSens t₁ then 1 else 0)⟩ : AbsState) t₂
          = ⟨insert (tripSig t₁) a.seen, insert (tripRec t₁) a.recs,
          a.nEdges + 1, a.boundary + (if tripKind t₁ = EdgeKind.Net then 1 else 0),
          a.pii + (if tripSens t₁ then 1 else 0)⟩ from by
        simp [gstep, Finset.mem_insert, hs.symm]]
      rw [show gstep (⟨insert (tripSig t₂) a.seen, insert (tripRec t₂) a.recs,
          a.nEdges + 1, a.boundary + (if tripKind t₂ = EdgeKind.Net then 1 else 0),
          a.pii + (if tripSens t₂ then 1 else 0)⟩ : AbsState) t₁
          = ⟨insert (tripSig t₂) a.seen, insert (tripRec t₂) a.recs,
          a.nEdges + 1, a.boundary + (if tripKind t₂ = EdgeKind.Net then 1 else 0),
          a.pii + (if tripSens t₂ then 1 else 0)⟩ from by
        simp [gstep, Finset.mem_insert, hs]]
      rw [hs, hr, hkind, hsens]
    · have hs2 : tripSig t₂ ≠ tripSig t₁ := fun hh => hs hh.symm
      have f1 : gstep (⟨insert (tripSig t₁) a.seen, insert (tripRec t₁) a.recs,
          a.nEdges + 1, a.boundary + (if tripKind t₁ = EdgeKind.Net then 1 else 0),
          a.pii + (if tripSens t₁ then 1 else 0)⟩ : AbsState) t₂
          = ⟨insert (tripSig t₂) (insert (tripSig t₁) a.seen),
             insert (tripRec t₂) (insert (tripRec t₁) a.recs),
             a.nEdges + 1 + 1,
             a.boundary + (if tripKind t₁ = EdgeKind.Net then 1 else 0)
               + (if tripKind t₂ = EdgeKind.Net then 1 else 0),
             a.pii + (if tripSens t₁ then 1 else 0)
               + (if tripSens t₂ then 1 else 0)⟩ := by
        simp [gstep, Finset.mem_insert, hs2, h2]
      have f2 : gstep (⟨insert (tripSig t₂) a.seen, insert (tripRec t₂) a.recs,
          a.nEdges + 1, a.boundary + (if tripKind t₂ = EdgeKind.Net then 1 else 0),
          a.pii + (if tripSens t₂ then 1 else 0)⟩ : AbsState) t₁
          = ⟨insert (tripSig t₁) (insert (tripSig t₂) a.seen),
             insert (tripRec t₁) (insert (tripRec t₂) a.recs),
             a.nEdges + 1 + 1,
             a.boundary + (if tripKind t₂ = EdgeKind.Net then 1 else 0)
               + (if tripKind t₁ = EdgeKind.Net then 1 else 0),
             a.pii + (if tripSens t₂ then 1 else 0)
               + (if tripSens t₁ then 1 else 0)⟩ := by
        simp [gstep, Finset.mem_insert, hs, h1]
      rw [f1, f2]
      congr 1
      · exact Finset.Insert.comm _ _ _
      · exact Finset.Insert.comm _ _ _
      all_goals omega


theorem foldl_gstep_perm : ∀ {l₁ l₂ : List Triple}, l₁.Perm l₂ →
    (∀ t₁ ∈ l₁, ∀ t₂ ∈ l₁, tripSig t₁ = tripSig t₂ → tripRec t₁ = tripRec t₂) →
    ∀ a : AbsState, l₁.foldl gstep a = l₂.foldl gstep a := by
  intro l₁ l₂ p
  induction p with
  | nil => intro _ a; rfl
  | cons x p ih =>
    intro hc a
    simp only [List.foldl_cons]
    exact ih (fun t₁ h₁ t₂ h₂ => hc t₁ (List.mem_cons_of_mem x h₁) t₂
      (List.mem_cons_of_mem x h₂)) _
  | swap x y l =>
    intro hc a
    simp only [List.foldl_cons]
    rw [gstep_comm (hc y (by simp) x (by simp))]
  | trans p₁ p₂ ih₁ ih₂ =>
    intro hc a
    rw [ih₁ hc a]
    refine ih₂ (fun t₁ h₁ t₂ h₂ => hc t₁ (p₁.mem_iff.2 h₁) t₂ (p₁.mem_iff.2 h₂)) a

theorem flatTriples_innerPerm : ∀ {a c : RepoMap}, InnerPerm a c →
    (flatTriples a).Perm (flatTriples c) := by
  intro a c h
  induction h with
  | nil => exact List.Perm.refl _
  | cons hxy htail ih =>
    rename_i x y l₁ l₂
    simp only [flatTriples, List.flatMap_cons]
    exact (hxy.2.flatMap_right _).append ih

theorem flatTriples_outerPerm {c b : RepoMap} (h : List.Perm c b) :
    (flatTriples c).Perm (flatTriples b) :=
  h.flatMap_right _

theorem functions_innerPerm : ∀ {a c : RepoMap}, InnerPerm a c →
    (a.map (fun fe => fe.2.length)).sum = (c.map (fun fe => fe.2.length)).sum := by
  intro a c h
  induction h with
  | nil => rfl
  | cons hxy htail ih =>
    simp only [List.map_cons, List.sum_cons, hxy.2.length_eq, ih]

theorem functions_outerPerm {c b : RepoMap} (h : List.Perm c b) :
    (c.map (fun fe => fe.2.length)).sum = (b.map (fun fe => fe.2.length)).sum :=
  (h.map _).sum_eq


/-- C3 (amended): for every per-file map in which any two edge occurrences
with equal signature strings also produce the same retained record
(function, src, dst, kind, sensitive) — true in particular whenever no
function name or node label contains the separator `|` — running
`to_security_flow` under any two iteration orders of the outer map and of
each file's inner function map yields the same `SecIndex` (functions,
edges, boundary_crossings, pii_edges) and the same set of `SecEdge`
records.  Without that proviso the claim fails: see the counterexample,
where a signature-string collision between records of different kinds
makes `boundary_crossings` depend on iteration order. -/
theorem to_security_flow_iter_order (a b : RepoMap) (h : IterEquiv a b)
    (hc : ∀ t₁ ∈ flatTriples a, ∀ t₂ ∈ flatTriples a,
      tripSig t₁ = tripSig t₂ → tripRec t₁ = tripRec t₂) :
    (to_security_flow a).index = (to_security_flow b).index ∧
    (to_security_flow a).edges.toFinset = (to_security_flow b).edges.toFinset := by
  obtain ⟨c, hic, hcb⟩ := h
  have hperm : (flatTriples a).Perm (flatTriples b) :=
    (flatTriples_innerPerm hic).trans (flatTriples_outerPerm hcb)
  have habs : absOf ((flatTriples a).foldl procT ⟨[], [], 0, 0⟩)
      = absOf ((flatTriples b).foldl procT ⟨[], [], 0, 0⟩) := by
    rw [absOf_foldl, absOf_foldl]
    exact foldl_gstep_perm hperm hc _
  have hfun : (a.map (fun fe => fe.2.length)).sum = (b.map (fun fe => fe.2.length)).sum :=
    (functions_innerPerm hic).trans (functions_outerPerm hcb)
  have hlen : ((flatTriples a).foldl procT ⟨[], [], 0, 0⟩).edges_out.length
      = ((flatTriples b).foldl procT ⟨[], [], 0, 0⟩).edges_out.length :=
    congrArg AbsState.nEdges habs
  have hbd : ((flatTriples a).foldl procT ⟨[], [], 0, 0⟩).boundary
      = ((flatTriples b).foldl procT ⟨[], [], 0, 0⟩).boundary :=
    congrArg AbsState.boundary habs
  have hpi : ((flatTriples a).foldl procT ⟨[], [], 0, 0⟩).pii
      = ((flatTriples b).foldl procT ⟨[], [], 0, 0⟩).pii :=
    congrArg AbsState.pii habs
  have hrecs : ((flatTriples a).foldl procT ⟨[], [], 0, 0⟩).edges_out.toFinset
      = ((flatTriples b).foldl procT ⟨[], [], 0, 0⟩).edges_out.toFinset :=
    congrArg AbsState.recs habs
  rw [to_security_flow_flat a, to_security_flow_flat b]
  dsimp only
  exact ⟨by rw [hfun, hlen, hbd, hpi], hrecs⟩

/-- C3 witness: the amended determinism theorem applied to a concrete
collision-free two-function map and its swapped iteration order. -/
theorem to_security_flow_iter_order_witness :
    (to_security_flow w3A).index = (to_security_flow w3B).index ∧
    (to_security_flow w3A).edges.toFinset = (to_security_flow w3B).edges.toFinset :=
  to_security_flow_iter_order w3A w3B
    ⟨w3B, List.Forall₂.cons ⟨rfl, List.Perm.swap _ _ _⟩ List.Forall₂.nil, List.Perm.refl _⟩
    (by decide)

/-- C3 counterexample: `c3A` and `c3B` are two iteration orders of one and
the same repository map, yet the first yields `boundary_crossings = 0` and
the second `boundary_crossings = 1` — the two distinct edges share the
dedupe signature string `f|Db|DB: q|Net|NET: w|e` although one derives
kind `Db` and the other `Net`, so whichever is seen first wins. -/
theorem to_security_flow_iter_order_cex :
    IterEquiv c3A c3B ∧
      (to_security_flow c3A).index.boundary_crossings = 0 ∧
      (to_security_flow c3B).index.boundary_crossings = 1 :=
  ⟨⟨c3B, List.Forall₂.cons ⟨rfl, List.Perm.swap _ _ _⟩ List.Forall₂.nil, List.Perm.refl _⟩,
   by decide, by decide⟩

end Casesmith
